import Mathlib

set_option maxRecDepth 4000

/-!
Verification development for the view-tree engine of this repository.

Part I embeds the reconciling container node for repositories
(RepositoriesNode.getChildren and RepositoriesNode.refresh) together with the
notification logic of ViewBase.refreshNode.  Node instances are identified by
natural-number instance ids drawn from an allocation counter, which models
reference identity of the TypeScript objects: a freshly constructed node gets
the current counter value and the counter increases, so distinct constructions
never share an id.

Part II embeds the bounded breadth-first search ViewBase.findNodeCoreBFS with
its level-marker queue, cancellation token, paging loop and the engine-owned
last-known-limit map.  The search is written as a fuel-driven small-step
interpreter over an explicit state that records a trace of the effects
(getChildren materialisations, showMore calls) so that temporal claims can be
stated about the trace.
-/

/-! Part I: the repositories container (RepositoriesNode). -/

/-- A repository record as delivered by the data source: a path, a normalized
path used as the stable reconciliation key, an ordering index and the closed
flag. -/
structure Repo where
  path : String
  normalizedPath : String
  index : Nat
  closed : Bool
deriving DecidableEq

/-- A cached child of the repositories container: either a repository node or
the informational message (placeholder) node.  The instance id models object
identity. -/
inductive RChild where
  | repoNode (instId : Nat) (repo : Repo)
  | messageNode (instId : Nat) (message : String)
deriving DecidableEq

/-- Instance id (object identity) of a child. -/
def RChild.instId : RChild → Nat
  | .repoNode i _ => i
  | .messageNode i _ => i

/-- Stable reconciliation key of a child: the normalized path for repository
nodes, nothing for the placeholder. -/
def RChild.key : RChild → Option String
  | .repoNode _ r => some r.normalizedPath
  | .messageNode _ _ => none

/-- Whether a child is a repository node. -/
def RChild.isRepoNode : RChild → Bool
  | .repoNode _ _ => true
  | .messageNode _ _ => false

/-- Effects performed by the container operations. -/
inductive REv where
  | fetchRepositories
  | refreshChild (instId : Nat)
  | disposeChild (instId : Nat)
deriving DecidableEq

/-- The ordering used by the sort call in the source:
repositories.sort((a, b) => a.index - b.index). -/
def repoLE (a b : Repo) : Prop := a.index ≤ b.index

instance : DecidableRel repoLE := fun a b => inferInstanceAs (Decidable (a.index ≤ b.index))

instance : IsTotal Repo repoLE := ⟨fun a b => Nat.le_total a.index b.index⟩

instance : IsTrans Repo repoLE := ⟨fun _ _ _ hab hbc => Nat.le_trans hab hbc⟩

/-- Sorting of the fetched repositories by their index key. -/
def sortByIndex (l : List Repo) : List Repo := List.insertionSort repoLE l

/-- The message of the placeholder node in the source. -/
def noReposMessage : String := "No repositories found"

/-- Construction of fresh repository nodes for a list of repositories, with
consecutive instance ids starting at the allocation counter. -/
def buildNodes : List Repo → Nat → List RChild
  | [], _ => []
  | r :: rs, n => RChild.repoNode n r :: buildNodes rs (n + 1)

/-- First cached child whose stable key equals the given normalized path
(pure description of the find call, defined for any child list). -/
def firstRepoMatch : List RChild → String → Option RChild
  | [], _ => none
  | c :: rest, k => if c.key = some k then some c else firstRepoMatch rest k

/-- Modelled from the spec: the find callback in RepositoriesNode.refresh reads
c.repo.normalizedPath after a cast to RepositoryNode[]; the MessageNode class
(views/nodes/common.ts, not under src) has no repo field, so reaching a
placeholder child in that scan raises a TypeError, modelled as an error. -/
def findByNormalizedPath : List RChild → String → Except Unit (Option RChild)
  | [], _ => .ok none
  | RChild.messageNode _ _ :: _, _ => .error ()
  | RChild.repoNode i r :: rest, k =>
    if r.normalizedPath = k then .ok (some (RChild.repoNode i r)) else findByNormalizedPath rest k

/-- The reconciliation loop of RepositoriesNode.refresh: for each repository in
sorted order, the matching cached child is kept and refreshed in place, and a
repository without a match yields a freshly constructed node.  Returns the new
children, the new allocation counter, and the refresh events. -/
def reconcile (old : List RChild) : List Repo → Nat → Except Unit (List RChild × Nat × List REv)
  | [], n => .ok ([], n, [])
  | r :: rs, n =>
    match findByNormalizedPath old r.normalizedPath with
    | .error e => .error e
    | .ok (some c) =>
      match reconcile old rs n with
      | .error e => .error e
      | .ok (out, n2, evs) => .ok (c :: out, n2, REv.refreshChild c.instId :: evs)
    | .ok none =>
      match reconcile old rs (n + 1) with
      | .error e => .error e
      | .ok (out, n2, evs) => .ok (RChild.repoNode n r :: out, n2, evs)

/-- RepositoriesNode.getChildren: if the children cache is present it is
returned unchanged with no recomputation; otherwise the repositories are
fetched, an empty collection yields a fresh placeholder that is NOT cached, and
otherwise the sorted repositories with the closed ones skipped are turned into
fresh nodes and cached.  Result: (returned children, new cache, new allocation
counter, effects). -/
def RepositoriesNode.getChildren (cache : Option (List RChild)) (repos : List Repo)
    (nextId : Nat) : List RChild × Option (List RChild) × Nat × List REv :=
  match cache with
  | some cs => (cs, some cs, nextId, [])
  | none =>
    if repos.isEmpty then
      ([RChild.messageNode nextId noReposMessage], none, nextId + 1, [REv.fetchRepositories])
    else
      let kept := (sortByIndex repos).filter (fun r => !r.closed)
      let children := buildNodes kept nextId
      (children, some children, nextId + kept.length, [REv.fetchRepositories])

/-- The disposal loop at the end of RepositoriesNode.refresh: every previously
cached child that is not among the new children (object identity, modelled by
the instance id) is disposed. -/
def disposeEvents (children : List RChild) : List RChild → List REv
  | [] => []
  | c :: rest =>
    if children.any (fun k => k.instId == c.instId) then disposeEvents children rest
    else REv.disposeChild c.instId :: disposeEvents children rest

/-- RepositoriesNode.refresh: returns the new cache, the new allocation counter
and the effect list, or an error when the TypeScript code would throw.  Follows
the source line by line: early return when nothing is cached; early return when
the fetched collection is empty and the cached list has length zero; placeholder
replacement when the fetched collection is empty; otherwise reconciliation
followed by disposal of the unmatched cached children. -/
def RepositoriesNode.refresh (cache : Option (List RChild)) (repos : List Repo)
    (nextId : Nat) : Except Unit (Option (List RChild) × Nat × List REv) :=
  match cache with
  | none => .ok (none, nextId, [])
  | some cs =>
    if repos.isEmpty && cs.isEmpty then .ok (some cs, nextId, [REv.fetchRepositories])
    else if repos.isEmpty then
      .ok (some [RChild.messageNode nextId noReposMessage], nextId + 1, [REv.fetchRepositories])
    else
      match reconcile cs (sortByIndex repos) nextId with
      | .error e => .error e
      | .ok (children, n2, evs) =>
        .ok (some children, n2, REv.fetchRepositories :: evs ++ disposeEvents children cs)

/-- RepositoriesNode.refresh has return type Promise of void: it never produces
the skip signal that ViewBase.refreshNode tests against true. -/
def RepositoriesNode.refreshSignal : Option Bool := none

/-- ViewBase.refreshNode emits a scoped change notification unless the node
refresh returned exactly true. -/
def ViewBase.refreshNodeEmits (cancel : Option Bool) : Bool :=
  !(cancel == some true)

/-- One ViewBase.refreshNode call on the repositories container: run the node
refresh, then count the emitted change notifications (1 unless the refresh
signalled skip, which RepositoriesNode.refresh never does). -/
def RepositoriesNode.refreshNodeRun (cache : Option (List RChild)) (repos : List Repo)
    (nextId : Nat) : Except Unit (Option (List RChild) × Nat × Nat) :=
  match RepositoriesNode.refresh cache repos nextId with
  | .error e => .error e
  | .ok (c2, n2, _) =>
    .ok (c2, n2, if ViewBase.refreshNodeEmits RepositoriesNode.refreshSignal then 1 else 0)

/-- Two consecutive ViewBase.refreshNode calls on the repositories container,
returning the final cache, the final counter, and the total number of change
notifications emitted. -/
def RepositoriesNode.refreshNodeTwice (cache : Option (List RChild)) (repos : List Repo)
    (nextId : Nat) : Except Unit (Option (List RChild) × Nat × Nat) :=
  match RepositoriesNode.refreshNodeRun cache repos nextId with
  | .error e => .error e
  | .ok (c2, n2, k1) =>
    match RepositoriesNode.refreshNodeRun c2 repos n2 with
    | .error e => .error e
    | .ok (c3, n3, k2) => .ok (c3, n3, k1 + k2)

/-- Specification of one reconciled position: the repository r at some position
of the sorted collection is paired with the first cached child carrying its
key when there is one, and with a freshly constructed node (instance id at or
above the allocation counter n) otherwise. -/
def MatchSpec (cs : List RChild) (n : Nat) (r : Repo) (c : RChild) : Prop :=
  match firstRepoMatch cs r.normalizedPath with
  | some c0 => c = c0
  | none => ∃ j, n ≤ j ∧ c = RChild.repoNode j r

/-- A view node as seen by the tree-level ViewBase.getChildren boundary: its
children computation either produces a list of child ids or throws. -/
structure VNode where
  id : Nat
  childrenResult : Except String (List Nat)

/-- ViewBase.getChildren: delegates to the given node, or to the root when no
node is given.  The source has no try/catch here, so a failure of the node
computation is forwarded to the caller. -/
def ViewBase.getChildren (root : VNode) (node : Option VNode) : Except String (List Nat) :=
  match node with
  | some n => n.childrenResult
  | none => root.childrenResult

/-- An error message used in concrete counterexamples. -/
def boomMsg : String := "boom"

/-! Part II: the bounded breadth-first search (ViewBase.findNodeCoreBFS). -/

/-- A tree node for the search: its id, whether it is pageable, its initial
window size (for pageable nodes the cached children are the prefix window of
the full logical list), and its full children list. -/
inductive PTree where
  | mk (id : Nat) (pageable : Bool) (window : Nat) (children : List PTree)

/-- Node id. -/
def PTree.id : PTree → Nat
  | .mk i _ _ _ => i

/-- Pageable capability flag. -/
def PTree.pageable : PTree → Bool
  | .mk _ p _ _ => p

/-- Initial window size of the node. -/
def PTree.window : PTree → Nat
  | .mk _ _ w _ => w

/-- Full (logical) children list of the node. -/
def PTree.children : PTree → List PTree
  | .mk _ _ _ cs => cs

/-- Effects observable during a findNode run. -/
inductive Ev where
  | getChildren (id : Nat)
  | showMore (id : Nat)
deriving DecidableEq

/-- Configuration of one findNodeCoreBFS run: the predicate and canTraverse
test (by node id), the allowPaging flag, the maxDepth bound, the cancellation
token (cancelAt k means the token reads cancelled from the k-th check on, so
cancelAt 0 is a pre-cancelled token and none means no token), and the
defaultPageSize from the configuration. -/
structure Cfg where
  pred : Nat → Bool
  canTraverse : Option (Nat → Bool)
  allowPaging : Bool
  maxDepth : Nat
  cancelAt : Option Nat
  pageSize : Nat

/-- Mutable engine state threaded through the search: the number of
cancellation checks performed so far, the engine-owned last-known-limit map,
the per-node cached window sizes mutated by showMore, and the effect trace. -/
structure St where
  clock : Nat
  limits : List (Nat × Nat)
  windows : List (Nat × Nat)
  trace : List Ev

/-- State at the start of a findNode call. -/
def initSt : St := ⟨0, [], [], []⟩

/-- Lookup in an association list (most recent entry first). -/
def getA (m : List (Nat × Nat)) (k : Nat) : Option Nat :=
  match m.find? (fun p => p.1 == k) with
  | some p => some p.2
  | none => none

/-- Update of an association list. -/
def setA (m : List (Nat × Nat)) (k v : Nat) : List (Nat × Nat) := (k, v) :: m

/-- One read of token.isCancellationRequested. -/
def isCancelled (cfg : Cfg) (s : St) : Bool :=
  match cfg.cancelAt with
  | none => false
  | some k => decide (k ≤ s.clock)

/-- Advance the check counter after a token read. -/
def tick (s : St) : St := { s with clock := s.clock + 1 }

/-- Append one effect to the trace. -/
def addEv (e : Ev) (s : St) : St := { s with trace := s.trace ++ [e] }

/-- Current window of a pageable node: the engine state entry if showMore has
already grown it, the node initial window otherwise. -/
def windowOf (s : St) (t : PTree) : Nat := (getA s.windows t.id).getD t.window

/-- Result of the paging loop inside findNodeCoreBFS. -/
inductive PagingRes where
  | found (t : PTree)
  | cancelled
  | exhausted
  | fuelOut

/-- State effect of one paging round on node i at window w: the token check,
the showMore call growing the window to w plus pageSize (recording the new
limit in the engine-owned last-known-limit map, as showMoreNodeChildren does),
and the re-fetch of the children. -/
def pageRound (cfg : Cfg) (i : Nat) (w : Nat) (s : St) : St :=
  addEv (Ev.getChildren i)
    { tick s with
      windows := setA (tick s).windows i (w + cfg.pageSize),
      limits := setA (tick s).limits i (w + cfg.pageSize),
      trace := (tick s).trace ++ [Ev.showMore i] }

/-- Modelled from the spec: PageableViewNode.showMore and hasMore live in the
node classes (views/nodes, not under src); per the spec showMore grows the
cached prefix window by the requested count, node.limit reports the new window
and hasMore holds while the window is smaller than the full list.  The loop
structure itself follows the source: check the token, showMoreNodeChildren
(which records the new limit in the last-known-limit map), re-fetch the paged
children, retest the predicate, and stop on a match or when hasMore turns
false. -/
def pagingLoop (cfg : Cfg) (i : Nat) (items : List PTree) :
    Nat → Nat → St → PagingRes × St
  | 0, _, s => (.fuelOut, s)
  | fuel + 1, w, s =>
    if isCancelled cfg s then (.cancelled, tick s)
    else
      match (items.take (w + cfg.pageSize)).find? (fun u => cfg.pred u.id) with
      | some c => (.found c, pageRound cfg i w s)
      | none =>
        if w + cfg.pageSize < items.length then
          pagingLoop cfg i items fuel (w + cfg.pageSize) (pageRound cfg i w s)
        else (.exhausted, pageRound cfg i w s)

/-- Trace of k paging rounds on node i: each round is one showMore followed by
one re-fetch of the children. -/
def roundTrace (i : Nat) : Nat → List Ev
  | 0 => []
  | k + 1 => Ev.showMore i :: Ev.getChildren i :: roundTrace i k

/-- The canTraverse gate: skip the subtree when the supplied test rejects the
node. -/
def skipTraverse (cfg : Cfg) (t : PTree) : Bool :=
  match cfg.canTraverse with
  | none => false
  | some f => !f t.id

/-- Outcome of one iteration of the BFS while-loop: a final answer, a
continuation with the new queue, depth and state, or divergence of the inner
paging loop. -/
inductive StepRes where
  | done (r : Option PTree) (s : St)
  | cont (q : List (Option PTree)) (d : Nat) (s : St)
  | stuck (s : St)

/-- The state carried by a step outcome. -/
def StepRes.st : StepRes → St
  | .done _ s => s
  | .cont _ _ s => s
  | .stuck s => s

/-- Processing of one popped node: predicate test, canTraverse gate, children
materialisation, then either the pageable handling (windowed find, optional
paging loop, and never enqueueing the children) or enqueueing all children. -/
def processNode (cfg : Cfg) (t : PTree) (rest : List (Option PTree)) (d : Nat)
    (s : St) : StepRes :=
  if cfg.pred t.id then .done (some t) s
  else if skipTraverse cfg t then .cont rest d s
  else
    let w := windowOf s t
    let cs := if t.pageable then t.children.take w else t.children
    let s1 := addEv (Ev.getChildren t.id) s
    if cs.isEmpty then .cont rest d s1
    else if t.pageable then
      match cs.find? (fun u => cfg.pred u.id) with
      | some c => .done (some c) s1
      | none =>
        if cfg.allowPaging && decide (w < t.children.length) then
          match pagingLoop cfg t.id t.children (t.children.length + 1) w s1 with
          | (.found c, s2) => .done (some c) s2
          | (.cancelled, s2) => .done none s2
          | (.exhausted, s2) => .cont rest d s2
          | (.fuelOut, s2) => .stuck s2
        else .cont rest d s1
    else .cont (rest ++ t.children.map some) d s1

/-- One iteration of the BFS while-loop of findNodeCoreBFS: exit when only the
level marker remains, then the cancellation check, then either the level
marker handling (increment depth, re-enqueue a marker, abort past maxDepth) or
the node processing.  The level marker is the none entry of the queue. -/
def bfsStep (cfg : Cfg) (q : List (Option PTree)) (d : Nat) (s : St) : StepRes :=
  if q.length ≤ 1 then .done none s
  else if isCancelled cfg s then .done none (tick s)
  else
    match q with
    | [] => .done none (tick s)
    | none :: rest =>
      if cfg.maxDepth < d + 1 then .done none (tick s)
      else .cont (rest ++ [none]) (d + 1) (tick s)
    | some t :: rest => processNode cfg t rest d (tick s)

/-- Fuel-driven iteration of the BFS loop.  The first component is none when
the fuel ran out or the paging loop diverged, and some r when the loop
finished with answer r. -/
def bfsRun (cfg : Cfg) : Nat → List (Option PTree) → Nat → St → Option (Option PTree) × St
  | 0, _, _, s => (none, s)
  | fuel + 1, q, d, s =>
    match bfsStep cfg q d s with
    | .done r s1 => (some r, s1)
    | .stuck s1 => (none, s1)
    | .cont q1 d1 s1 => bfsRun cfg fuel q1 d1 s1

/-- Entry of findNodeCoreBFS: the queue starts as [root, marker] at depth 0. -/
def findNodeCoreBFS (cfg : Cfg) (root : PTree) (fuel : Nat) : Option (Option PTree) × St :=
  bfsRun cfg fuel [some root, none] 0 initSt

/-- Options of the public findNode entry; a missing maxDepth or token mirrors
an omitted option. -/
structure FindOpts where
  allowPaging : Bool
  canTraverse : Option (Nat → Bool)
  maxDepth : Option Nat
  cancelAt : Option Nat

/-- The public findNode entry: destructuring defaults allowPaging to false and
maxDepth to 2, then delegates to findNodeCoreBFS. -/
def findNode (p : Nat → Bool) (opts : FindOpts) (pageSize : Nat) (root : PTree)
    (fuel : Nat) : Option (Option PTree) × St :=
  findNodeCoreBFS
    ⟨p, opts.canTraverse, opts.allowPaging, opts.maxDepth.getD 2, opts.cancelAt, pageSize⟩
    root fuel

/-- Whether a findNode result is the definite not-found answer. -/
def notFound : Option (Option PTree) → Bool
  | some none => true
  | _ => false

/-- Occurrence of a node u at depth d of the tree rooted at t. -/
inductive AtDepth : PTree → Nat → PTree → Prop
  | refl (t : PTree) : AtDepth t 0 t
  | child {t u c : PTree} {d : Nat} : AtDepth t d u → c ∈ u.children → AtDepth t (d + 1) c

/-- An effect is admissible for the depth bound m when any getChildren it
performs targets a node occurring at depth at most m. -/
def EvOK (root : PTree) (m : Nat) (e : Ev) : Prop :=
  ∀ i, e = Ev.getChildren i → ∃ u d, AtDepth root d u ∧ u.id = i ∧ d ≤ m

/-- The queue invariant of the BFS: the queue is the nodes of the current
level, then the single level marker, then the already-discovered nodes of the
next level; the current depth never exceeds the bound. -/
def QInv (root : PTree) (m : Nat) (q : List (Option PTree)) (d : Nat) : Prop :=
  d ≤ m ∧ ∃ A B : List PTree, q = A.map some ++ none :: B.map some ∧
    (∀ u ∈ A, AtDepth root d u) ∧ (∀ u ∈ B, AtDepth root (d + 1) u)

/-- Trace extension by effects of a single node i. -/
def Extends (i : Nat) (s s1 : St) : Prop :=
  ∃ es, s1.trace = s.trace ++ es ∧ ∀ e ∈ es, e = Ev.showMore i ∨ e = Ev.getChildren i

/-! Concrete objects used by witnesses and counterexamples. -/

/-- A leaf node with the given id. -/
def leafW (i : Nat) : PTree := .mk i false 0 []

/-- A pageable root with a one-element window over three leaves. -/
def rootW5 : PTree := .mk 0 true 1 [leafW 1, leafW 2, leafW 3]

/-- Configuration with a never-matching predicate and a token that cancels at
the third check. -/
def cfgW5 : Cfg := ⟨fun _ => false, none, true, 2, some 2, 1⟩

/-- A two-level tree for the depth-bound witness. -/
def rootW4 : PTree := .mk 0 false 0 [.mk 1 false 0 []]

/-- Configuration with a never-matching predicate and no token. -/
def cfgW4 : Cfg := ⟨fun _ => false, none, false, 2, none, 1⟩

/-- Items for the paging witness. -/
def itemsW3 : List PTree := [leafW 1, leafW 2, leafW 3]

/-- Configuration matching node 3 with paging allowed and no token. -/
def cfgW3 : Cfg := ⟨fun i => i == 3, none, true, 2, none, 1⟩

/-- A closed repository. -/
def rClosed : Repo := ⟨"/r1", "r1", 0, true⟩

/-- Repositories of the reconciliation scenario. -/
def repoA : Repo := ⟨"/a", "a", 0, false⟩

/-- Repository b of the reconciliation scenario. -/
def repoB : Repo := ⟨"/b", "b", 1, false⟩

/-- Repository c of the reconciliation scenario. -/
def repoC : Repo := ⟨"/c", "c", 2, false⟩

/-- Repository d of the reconciliation scenario. -/
def repoD : Repo := ⟨"/d", "d", 3, false⟩

/-- Cached children keyed a, b, c with instance ids 0, 1, 2. -/
def csW : List RChild := [.repoNode 0 repoA, .repoNode 1 repoB, .repoNode 2 repoC]

/-- The new external collection keyed d, b, c (deliberately unsorted). -/
def reposW : List Repo := [repoD, repoB, repoC]


/-! Theorems.  First the helper lemmas for Part I. -/

theorem findBy_eq_firstMatch {cs : List RChild} (hall : ∀ c ∈ cs, c.isRepoNode = true)
    (k : String) : findByNormalizedPath cs k = .ok (firstRepoMatch cs k) := by
  induction cs with
  | nil => rfl
  | cons c rest ih =>
    have h2 : ∀ x ∈ rest, x.isRepoNode = true := fun x hx => hall x (List.mem_cons_of_mem _ hx)
    cases c with
    | messageNode i m =>
      have := hall _ (List.mem_cons_self _ _)
      simp [RChild.isRepoNode] at this
    | repoNode i r =>
      by_cases h : r.normalizedPath = k
      · simp [findByNormalizedPath, firstRepoMatch, RChild.key, h]
      · simp [findByNormalizedPath, firstRepoMatch, RChild.key, h, ih h2]

theorem firstRepoMatch_mem {cs : List RChild} {k : String} {c : RChild}
    (h : firstRepoMatch cs k = some c) : c ∈ cs := by
  induction cs with
  | nil => simp [firstRepoMatch] at h
  | cons c0 rest ih =>
    by_cases h0 : c0.key = some k
    · simp [firstRepoMatch, h0] at h
      exact h ▸ List.mem_cons_self _ _
    · simp [firstRepoMatch, h0] at h
      exact List.mem_cons_of_mem _ (ih h)

theorem firstRepoMatch_key {cs : List RChild} {k : String} {c : RChild}
    (h : firstRepoMatch cs k = some c) : c.key = some k := by
  induction cs with
  | nil => simp [firstRepoMatch] at h
  | cons c0 rest ih =>
    by_cases h0 : c0.key = some k
    · simp [firstRepoMatch, h0] at h
      exact h ▸ h0
    · simp [firstRepoMatch, h0] at h
      exact ih h

theorem firstRepoMatch_self {cs : List RChild} (hkeys : (cs.map RChild.key).Nodup)
    {c : RChild} (hc : c ∈ cs) {k : String} (hk : c.key = some k) :
    firstRepoMatch cs k = some c := by
  induction cs with
  | nil => simp at hc
  | cons c0 rest ih =>
    rcases List.mem_cons.mp hc with hc0 | hcr
    · subst hc0
      simp [firstRepoMatch, hk]
    · have hne : c0.key ≠ some k := by
        intro hkey
        have : c.key ∈ rest.map RChild.key := List.mem_map_of_mem _ hcr
        rw [hk, ← hkey] at this
        exact (List.nodup_cons.mp hkeys).1 this
      simp [firstRepoMatch, hne]
      exact ih (List.nodup_cons.mp hkeys).2 hcr

theorem MatchSpec_mono {cs : List RChild} {n m : Nat} {r : Repo} {c : RChild}
    (h : n ≤ m) (hm : MatchSpec cs m r c) : MatchSpec cs n r c := by
  unfold MatchSpec at hm ⊢
  cases hfm : firstRepoMatch cs r.normalizedPath with
  | some c0 => rw [hfm] at hm; exact hm
  | none =>
    rw [hfm] at hm
    obtain ⟨j, hj, hc⟩ := hm
    exact ⟨j, Nat.le_trans h hj, hc⟩

theorem reconcile_spec (cs : List RChild) (hall : ∀ c ∈ cs, c.isRepoNode = true) :
    ∀ rs n, ∃ out n2 evs,
      reconcile cs rs n = .ok (out, n2, evs) ∧
      List.Forall₂ (MatchSpec cs n) rs out ∧
      (∀ c ∈ out, (c ∈ cs ∧ ∃ r ∈ rs, firstRepoMatch cs r.normalizedPath = some c) ∨
        (∃ j r, n ≤ j ∧ c = RChild.repoNode j r ∧ r ∈ rs)) ∧
      (∀ e ∈ evs, ∃ i, e = REv.refreshChild i) ∧
      (∀ c, (∃ r ∈ rs, firstRepoMatch cs r.normalizedPath = some c) →
        REv.refreshChild c.instId ∈ evs ∧ c ∈ out) ∧
      out.map RChild.key = rs.map (fun r => some r.normalizedPath) := by
  intro rs
  induction rs with
  | nil =>
    intro n
    exact ⟨[], n, [], rfl, List.Forall₂.nil, by simp, by simp, by simp, by simp⟩
  | cons r rs ih =>
    intro n
    cases hfm : firstRepoMatch cs r.normalizedPath with
    | some c0 =>
      obtain ⟨out, n2, evs, heq, hf, hmem, hsh, hmat, hkeys⟩ := ih n
      refine ⟨c0 :: out, n2, REv.refreshChild c0.instId :: evs, ?_, ?_, ?_, ?_, ?_, ?_⟩
      · simp only [reconcile, findBy_eq_firstMatch hall, hfm, heq]
      · exact List.Forall₂.cons (by unfold MatchSpec; rw [hfm]) hf
      · intro c hc
        rcases List.mem_cons.mp hc with hc0 | hco
        · subst hc0
          exact Or.inl ⟨firstRepoMatch_mem hfm, r, List.mem_cons_self _ _, hfm⟩
        · rcases hmem c hco with ⟨hin, r2, hr2, hm2⟩ | ⟨j, r2, hj, hcj, hr2⟩
          · exact Or.inl ⟨hin, r2, List.mem_cons_of_mem _ hr2, hm2⟩
          · exact Or.inr ⟨j, r2, hj, hcj, List.mem_cons_of_mem _ hr2⟩
      · intro e he
        rcases List.mem_cons.mp he with he0 | heo
        · exact ⟨c0.instId, he0⟩
        · exact hsh e heo
      · rintro c ⟨r2, hr2, hm2⟩
        rcases List.mem_cons.mp hr2 with hr0 | hro
        · subst hr0
          rw [hfm] at hm2
          obtain rfl : c0 = c := Option.some.inj hm2
          exact ⟨List.mem_cons_self _ _, List.mem_cons_self _ _⟩
        · obtain ⟨h1, h2⟩ := hmat c ⟨r2, hro, hm2⟩
          exact ⟨List.mem_cons_of_mem _ h1, List.mem_cons_of_mem _ h2⟩
      · simpa [firstRepoMatch_key hfm] using hkeys
    | none =>
      obtain ⟨out, n2, evs, heq, hf, hmem, hsh, hmat, hkeys⟩ := ih (n + 1)
      refine ⟨RChild.repoNode n r :: out, n2, evs, ?_, ?_, ?_, ?_, ?_, ?_⟩
      · simp only [reconcile, findBy_eq_firstMatch hall, hfm, heq]
      · refine List.Forall₂.cons ?_ (hf.imp fun _ _ hx => MatchSpec_mono (Nat.le_succ n) hx)
        unfold MatchSpec
        rw [hfm]
        exact ⟨n, Nat.le_refl n, rfl⟩
      · intro c hc
        rcases List.mem_cons.mp hc with hc0 | hco
        · exact Or.inr ⟨n, r, Nat.le_refl n, hc0, List.mem_cons_self _ _⟩
        · rcases hmem c hco with ⟨hin, r2, hr2, hm2⟩ | ⟨j, r2, hj, hcj, hr2⟩
          · exact Or.inl ⟨hin, r2, List.mem_cons_of_mem _ hr2, hm2⟩
          · exact Or.inr ⟨j, r2, Nat.le_of_succ_le hj, hcj, List.mem_cons_of_mem _ hr2⟩
      · exact hsh
      · rintro c ⟨r2, hr2, hm2⟩
        rcases List.mem_cons.mp hr2 with hr0 | hro
        · subst hr0
          rw [hfm] at hm2
          exact absurd hm2 (by simp)
        · obtain ⟨h1, h2⟩ := hmat c ⟨r2, hro, hm2⟩
          exact ⟨h1, List.mem_cons_of_mem _ h2⟩
      · simpa [RChild.key] using hkeys

theorem count_disposeEvents_zero (out : List RChild) (i : Nat) :
    ∀ cs : List RChild, (∀ x ∈ cs, x.instId ≠ i) →
      (disposeEvents out cs).count (REv.disposeChild i) = 0 := by
  intro cs
  induction cs with
  | nil => intro _; rfl
  | cons x rest ih =>
    intro h
    have hx : x.instId ≠ i := h x (List.mem_cons_self _ _)
    have hr := ih fun y hy => h y (List.mem_cons_of_mem _ hy)
    cases hc : out.any (fun y => y.instId == x.instId) with
    | true => simpa [disposeEvents, hc] using hr
    | false =>
      have hne : ¬((REv.disposeChild x.instId == REv.disposeChild i) = true) := by
        simp only [beq_iff_eq]
        intro he
        exact hx (REv.disposeChild.inj he)
      simp [disposeEvents, hc, List.count_cons, hr, hne]

theorem count_disposeEvents_one (out : List RChild) (c : RChild) :
    ∀ cs : List RChild, c ∈ cs → (cs.map RChild.instId).Nodup →
      out.any (fun y => y.instId == c.instId) = false →
      (disposeEvents out cs).count (REv.disposeChild c.instId) = 1 := by
  intro cs
  induction cs with
  | nil => intro h; simp at h
  | cons x rest ih =>
    intro hc hnd hany
    have hnd2 := List.nodup_cons.mp hnd
    rcases List.mem_cons.mp hc with hc0 | hcr
    · subst hc0
      have hz : ∀ y ∈ rest, y.instId ≠ c.instId := by
        intro y hy hcy
        exact hnd2.1 (hcy ▸ List.mem_map_of_mem RChild.instId hy)
      simp [disposeEvents, hany, List.count_cons, count_disposeEvents_zero out c.instId rest hz]
    · have hxi : x.instId ≠ c.instId := by
        intro hxe
        exact hnd2.1 (hxe ▸ List.mem_map_of_mem RChild.instId hcr)
      have hr := ih hcr hnd2.2 hany
      cases hcnd : out.any (fun y => y.instId == x.instId) with
      | true => simpa [disposeEvents, hcnd] using hr
      | false =>
        have hne : ¬((REv.disposeChild x.instId == REv.disposeChild c.instId) = true) := by
          simp only [beq_iff_eq]
          intro he
          exact hxi (REv.disposeChild.inj he)
        simp [disposeEvents, hcnd, List.count_cons, hr, hne]

theorem mem_disposeEvents (out : List RChild) {i : Nat} :
    ∀ cs : List RChild, REv.disposeChild i ∈ disposeEvents out cs →
      ∃ x ∈ cs, x.instId = i ∧ out.any (fun y => y.instId == x.instId) = false := by
  intro cs
  induction cs with
  | nil => intro h; simp [disposeEvents] at h
  | cons x rest ih =>
    intro h
    cases hc : out.any (fun y => y.instId == x.instId) with
    | true =>
      rw [disposeEvents, if_pos hc] at h
      obtain ⟨y, hy, hrest⟩ := ih h
      exact ⟨y, List.mem_cons_of_mem _ hy, hrest⟩
    | false =>
      rw [disposeEvents, if_neg (by rw [hc]; exact Bool.false_ne_true)] at h
      rcases List.mem_cons.mp h with h0 | hr
      · exact ⟨x, List.mem_cons_self _ _, (REv.disposeChild.inj h0).symm, hc⟩
      · obtain ⟨y, hy, hrest⟩ := ih hr
        exact ⟨y, List.mem_cons_of_mem _ hy, hrest⟩

theorem buildNodes_map_key (l : List Repo) : ∀ n,
    (buildNodes l n).map RChild.key = l.map (fun r => some r.normalizedPath) := by
  induction l with
  | nil => intro n; rfl
  | cons r rs ih => intro n; simp [buildNodes, RChild.key, ih (n + 1)]

/-- C1 amended: the original claim restricted to the scope the counterexample
forces - a cached children list of repository nodes (with the
sibling-uniqueness invariants: distinct instance ids, distinct keys, ids below
the allocation counter; a cached placeholder makes refresh throw instead) and a
nonempty external collection (an empty one replaces the cache by a placeholder
without disposing anything).  On that scope the refresh succeeds; the resulting
children correspond position by position to the index-sorted external items
(MatchSpec: a matched key keeps the exact cached instance, an unmatched item
yields a freshly constructed node whose id is at or above the allocation
counter, hence a new instance); matched cached children are refreshed in place
and never disposed; every cached child with no matching external item is
disposed exactly once; and the positions follow the sorted-by-index permutation
of the collection. -/
theorem repositoriesNode_refresh_reconciles
    (cs : List RChild) (repos : List Repo) (nextId : Nat)
    (hall : ∀ c ∈ cs, c.isRepoNode = true)
    (hids : (cs.map RChild.instId).Nodup)
    (hkeys : (cs.map RChild.key).Nodup)
    (halloc : ∀ c ∈ cs, c.instId < nextId)
    (hne : repos ≠ []) :
    ∃ out n2 evs,
      RepositoriesNode.refresh (some cs) repos nextId = .ok (some out, n2, evs) ∧
      List.Forall₂ (MatchSpec cs nextId) (sortByIndex repos) out ∧
      List.Sorted repoLE (sortByIndex repos) ∧
      (sortByIndex repos).Perm repos ∧
      (∀ c ∈ cs, (∃ r ∈ repos, c.key = some r.normalizedPath) →
        REv.refreshChild c.instId ∈ evs ∧ REv.disposeChild c.instId ∉ evs) ∧
      (∀ c ∈ cs, (∀ r ∈ repos, c.key ≠ some r.normalizedPath) →
        evs.count (REv.disposeChild c.instId) = 1) := by
  obtain ⟨out, n2, revs, heq, hf, hmem, hsh, hmat, _⟩ :=
    reconcile_spec cs hall (sortByIndex repos) nextId
  have hie : repos.isEmpty = false := by
    cases repos with
    | nil => exact absurd rfl hne
    | cons a as => rfl
  have hperm : (sortByIndex repos).Perm repos := List.perm_insertionSort repoLE repos
  refine ⟨out, n2, REv.fetchRepositories :: revs ++ disposeEvents out cs, ?_, hf,
    List.sorted_insertionSort repoLE repos, hperm, ?_, ?_⟩
  · simp [RepositoriesNode.refresh, hie, heq]
  · rintro c hc ⟨r, hr, hkey⟩
    have hrs : r ∈ sortByIndex repos := hperm.mem_iff.mpr hr
    have hm : firstRepoMatch cs r.normalizedPath = some c := firstRepoMatch_self hkeys hc hkey
    obtain ⟨hev, hout⟩ := hmat c ⟨r, hrs, hm⟩
    refine ⟨List.mem_cons_of_mem _ (List.mem_append.mpr (Or.inl hev)), ?_⟩
    intro habs
    rcases List.mem_cons.mp habs with h0 | h1
    · exact REv.noConfusion h0
    rcases List.mem_append.mp h1 with h2 | h3
    · obtain ⟨i, hi⟩ := hsh _ h2
      exact REv.noConfusion hi
    · obtain ⟨x, _, hxi, hxany⟩ := mem_disposeEvents out cs h3
      have hx : out.any (fun y => y.instId == x.instId) = true :=
        List.any_eq_true.mpr ⟨c, hout, by simp [hxi]⟩
      rw [hx] at hxany
      exact Bool.noConfusion hxany
  · intro c hc hnof
    have hany : out.any (fun y => y.instId == c.instId) = false := by
      rw [Bool.eq_false_iff]
      intro habs
      obtain ⟨y, hy, hyp⟩ := List.any_eq_true.mp habs
      have hyi : y.instId = c.instId := by simpa using hyp
      rcases hmem y hy with ⟨hyin, r2, hr2, hm2⟩ | ⟨j, r2, hj, hyj, _⟩
      · have : y = c := List.inj_on_of_nodup_map hids hyin hc hyi
        subst this
        exact hnof r2 (hperm.mem_iff.mp hr2) (firstRepoMatch_key hm2)
      · have hycount : y.instId = j := by rw [hyj]; rfl
        have : nextId ≤ c.instId := by rw [← hyi, hycount]; exact hj
        exact absurd (halloc c hc) (Nat.not_lt_of_ge this)
    have hdev : (disposeEvents out cs).count (REv.disposeChild c.instId) = 1 :=
      count_disposeEvents_one out c cs hc hids hany
    have hrevs : revs.count (REv.disposeChild c.instId) = 0 := by
      rw [List.count_eq_zero]
      intro habs
      obtain ⟨i, hi⟩ := hsh _ habs
      exact REv.noConfusion hi
    simp [List.count_cons, List.count_append, hdev, hrevs]

theorem c1_witness :
    (∀ c ∈ csW, c.isRepoNode = true) ∧ (csW.map RChild.instId).Nodup ∧
      (csW.map RChild.key).Nodup ∧ (∀ c ∈ csW, c.instId < 3) ∧ reposW ≠ [] ∧
    (∃ out n2 evs,
      RepositoriesNode.refresh (some csW) reposW 3 = .ok (some out, n2, evs) ∧
      List.Forall₂ (MatchSpec csW 3) (sortByIndex reposW) out ∧
      List.Sorted repoLE (sortByIndex reposW) ∧
      (sortByIndex reposW).Perm reposW ∧
      (∀ c ∈ csW, (∃ r ∈ reposW, c.key = some r.normalizedPath) →
        REv.refreshChild c.instId ∈ evs ∧ REv.disposeChild c.instId ∉ evs) ∧
      (∀ c ∈ csW, (∀ r ∈ reposW, c.key ≠ some r.normalizedPath) →
        evs.count (REv.disposeChild c.instId) = 1)) :=
  ⟨by decide, by decide, by decide, by decide, by decide,
    repositoriesNode_refresh_reconciles csW reposW 3 (by decide) (by decide) (by decide)
      (by decide) (by decide)⟩

/-- C2 counterexample: with the placeholder cached (instance id 7) and an empty
external collection, refresh constructs a fresh placeholder instance (id 8) in
place of the cached one, and two consecutive refreshNode calls emit one change
notification each, for a total of 2 (not at most 1): the cached-length-zero
guard of the source never covers the one-element placeholder list, and the
refresh returns no skip signal. -/
theorem c2_counterexample :
    RepositoriesNode.refresh (some [RChild.messageNode 7 noReposMessage]) [] 8 =
      .ok (some [RChild.messageNode 8 noReposMessage], 9, [REv.fetchRepositories]) ∧
    RChild.messageNode 8 noReposMessage ≠ RChild.messageNode 7 noReposMessage ∧
    RepositoriesNode.refreshNodeTwice (some [RChild.messageNode 7 noReposMessage]) [] 8 =
      .ok (some [RChild.messageNode 9 noReposMessage], 10, 2) ∧
    ¬(2 ≤ 1) := by
  refine ⟨rfl, ?_, rfl, by decide⟩
  intro h
  exact absurd (RChild.messageNode.inj h).1 (by decide)

/-- C2 amended: the guard of RepositoriesNode.refresh is a no-op only when the
cached children list is empty (length zero, reachable when every repository was
closed), in which case the cache is left untouched; when the cache already
holds the placeholder node and the external collection is again empty, the
placeholder is replaced by a freshly constructed placeholder instance; and
since RepositoriesNode.refresh never returns the skip signal,
ViewBase.refreshNode emits a change notification on every call. -/
theorem refresh_emptySet_behavior (n i : Nat) (msg : String) :
    RepositoriesNode.refresh (some []) [] n = .ok (some [], n, [REv.fetchRepositories]) ∧
    RepositoriesNode.refresh (some [RChild.messageNode i msg]) [] n =
      .ok (some [RChild.messageNode n noReposMessage], n + 1, [REv.fetchRepositories]) ∧
    ViewBase.refreshNodeEmits RepositoriesNode.refreshSignal = true :=
  ⟨rfl, rfl, rfl⟩

/-- C7: a node in the Loaded state (children cache present) returns the cached
sequence unchanged on getChildren, with no repository fetch and no new node
construction (the allocation counter is untouched), and a second consecutive
call on the resulting state returns the same node instances in the same
order. -/
theorem getChildren_cache_stable (cs : List RChild) (repos : List Repo) (n : Nat) :
    RepositoriesNode.getChildren (some cs) repos n = (cs, some cs, n, []) ∧
    RepositoriesNode.getChildren
      (RepositoriesNode.getChildren (some cs) repos n).2.1 repos
      (RepositoriesNode.getChildren (some cs) repos n).2.2.1 = (cs, some cs, n, []) :=
  ⟨rfl, rfl⟩

/-- C8 counterexample: a node whose children computation throws makes the
tree-level ViewBase.getChildren return that very error to the caller; the safe
default of empty children is not produced, because the source has no try/catch
at this boundary. -/
theorem c8_counterexample :
    ViewBase.getChildren ⟨0, .ok []⟩ (some ⟨5, .error boomMsg⟩) = .error boomMsg ∧
    (Except.error boomMsg : Except String (List Nat)) ≠ .ok [] :=
  ⟨rfl, fun h => Except.noConfusion h⟩

/-- C8 amended: ViewBase.getChildren performs no catch: it forwards the node
children computation unchanged (and the root computation when no node is
given), so a failure propagates to the caller instead of yielding empty
children. -/
theorem viewBase_getChildren_forwards (root : VNode) (n : VNode) :
    ViewBase.getChildren root (some n) = n.childrenResult ∧
    ViewBase.getChildren root none = root.childrenResult :=
  ⟨rfl, rfl⟩

/-- C9 counterexample: for the collection holding one closed repository, a
fresh getChildren on an unloaded container excludes it (empty children list),
while the reconciling refresh includes it: the two key lists differ, so refresh
and fresh getChildren do not agree item for item. -/
theorem c9_counterexample :
    ((RepositoriesNode.getChildren none [rClosed] 0).1).map RChild.key = [] ∧
    RepositoriesNode.refresh (some []) [rClosed] 0 =
      .ok (some [RChild.repoNode 0 rClosed], 1, [REv.fetchRepositories]) ∧
    ([RChild.repoNode 0 rClosed].map RChild.key ≠
      ((RepositoriesNode.getChildren none [rClosed] 0).1).map RChild.key) := by
  exact ⟨rfl, rfl, by decide⟩

/-- C9 amended: when no repository of the (nonempty) collection is closed and
the cached children are repository nodes, the children produced by the
reconciling refresh carry exactly the keys, in exactly the sorted-index order,
that a fresh getChildren on an unloaded container computes for the same
collection; closed repositories break the equivalence (refresh keeps them,
getChildren skips them), as the counterexample shows. -/
theorem refresh_matches_fresh_getChildren
    (cs : List RChild) (repos : List Repo) (nextId m : Nat)
    (hall : ∀ c ∈ cs, c.isRepoNode = true)
    (hne : repos ≠ [])
    (hopen : ∀ r ∈ repos, r.closed = false) :
    ∃ out n2 evs,
      RepositoriesNode.refresh (some cs) repos nextId = .ok (some out, n2, evs) ∧
      out.map RChild.key = ((RepositoriesNode.getChildren none repos m).1).map RChild.key := by
  obtain ⟨out, n2, revs, heq, _, _, _, _, hkeys2⟩ :=
    reconcile_spec cs hall (sortByIndex repos) nextId
  have hie : repos.isEmpty = false := by
    cases repos with
    | nil => exact absurd rfl hne
    | cons a as => rfl
  refine ⟨out, n2, REv.fetchRepositories :: revs ++ disposeEvents out cs, ?_, ?_⟩
  · simp [RepositoriesNode.refresh, hie, heq]
  · have hfilter : (sortByIndex repos).filter (fun r => !r.closed) = sortByIndex repos := by
      rw [List.filter_eq_self]
      intro r hr
      have : r ∈ repos := (List.perm_insertionSort repoLE repos).mem_iff.mp hr
      simp [hopen r this]
    simp only [RepositoriesNode.getChildren, hie, Bool.false_eq_true, if_false, hfilter]
    rw [hkeys2, buildNodes_map_key]

theorem c9_witness :
    (∀ c ∈ csW, c.isRepoNode = true) ∧ reposW ≠ [] ∧ (∀ r ∈ reposW, r.closed = false) ∧
    (∃ out n2 evs,
      RepositoriesNode.refresh (some csW) reposW 3 = .ok (some out, n2, evs) ∧
      out.map RChild.key = ((RepositoriesNode.getChildren none reposW 0).1).map RChild.key) :=
  ⟨by decide, by decide, by decide,
    refresh_matches_fresh_getChildren csW reposW 3 0 (by decide) (by decide) (by decide)⟩

/-! Helper lemmas for Part II. -/

theorem tick_trace (s : St) : (tick s).trace = s.trace := rfl

theorem pageRound_trace (cfg : Cfg) (i w : Nat) (s : St) :
    (pageRound cfg i w s).trace = s.trace ++ [Ev.showMore i, Ev.getChildren i] := by
  simp [pageRound, addEv, tick]

theorem isCancelled_none {cfg : Cfg} (hc : cfg.cancelAt = none) (s : St) :
    isCancelled cfg s = false := by
  simp [isCancelled, hc]

theorem pagingLoop_trace (cfg : Cfg) (i : Nat) (items : List PTree) :
    ∀ fuel w s, ∃ es, (pagingLoop cfg i items fuel w s).2.trace = s.trace ++ es ∧
      ∀ e ∈ es, e = Ev.showMore i ∨ e = Ev.getChildren i := by
  intro fuel
  induction fuel with
  | zero => intro w s; exact ⟨[], by simp [pagingLoop], by simp⟩
  | succ n ih =>
    intro w s
    cases hB : isCancelled cfg s with
    | true => exact ⟨[], by simp [pagingLoop, hB, tick], by simp⟩
    | false =>
      cases hf : (items.take (w + cfg.pageSize)).find? (fun u => cfg.pred u.id) with
      | some c =>
        refine ⟨[Ev.showMore i, Ev.getChildren i], ?_, by simp⟩
        simp [pagingLoop, hB, hf, pageRound_trace]
      | none =>
        by_cases hw : w + cfg.pageSize < items.length
        · obtain ⟨es, h1, h2⟩ := ih (w + cfg.pageSize) (pageRound cfg i w s)
          refine ⟨[Ev.showMore i, Ev.getChildren i] ++ es, ?_, ?_⟩
          · simp only [pagingLoop, hB, hf, hw, if_true, if_false, Bool.false_eq_true]
            rw [h1, pageRound_trace, List.append_assoc]
          · intro e he
            rcases List.mem_append.mp he with h3 | h4
            · rcases List.mem_cons.mp h3 with h5 | h6
              · exact Or.inl h5
              · simp at h6
                exact Or.inr h6
            · exact h2 e h4
        · refine ⟨[Ev.showMore i, Ev.getChildren i], ?_, by simp⟩
          simp [pagingLoop, hB, hf, hw, pageRound_trace]

theorem pagingLoop_not_fuelOut (cfg : Cfg) (i : Nat) (items : List PTree) :
    ∀ fuel w s, items.length ≤ w + fuel * cfg.pageSize →
      (pagingLoop cfg i items (fuel + 1) w s).1 ≠ PagingRes.fuelOut := by
  intro fuel
  induction fuel with
  | zero =>
    intro w s hlen
    cases hB : isCancelled cfg s with
    | true => simp [pagingLoop, hB]
    | false =>
      cases hf : (items.take (w + cfg.pageSize)).find? (fun u => cfg.pred u.id) with
      | some c => simp [pagingLoop, hB, hf]
      | none =>
        have hw : ¬(w + cfg.pageSize < items.length) := by omega
        simp [pagingLoop, hB, hf, hw]
  | succ n ih =>
    intro w s hlen
    cases hB : isCancelled cfg s with
    | true => simp [pagingLoop, hB]
    | false =>
      cases hf : (items.take (w + cfg.pageSize)).find? (fun u => cfg.pred u.id) with
      | some c => simp [pagingLoop, hB, hf]
      | none =>
        by_cases hw : w + cfg.pageSize < items.length
        · have hrec := ih (w + cfg.pageSize) (pageRound cfg i w s) (by
            have : (n + 1) * cfg.pageSize = cfg.pageSize + n * cfg.pageSize := by ring
            omega)
          simpa [pagingLoop, hB, hf, hw] using hrec
        · simp [pagingLoop, hB, hf, hw]

theorem pagingLoop_found (cfg : Cfg) (i : Nat) (items : List PTree)
    (hc : cfg.cancelAt = none) (hm : ∃ c ∈ items, cfg.pred c.id = true) :
    ∀ fuel w s, items.length ≤ w + fuel * cfg.pageSize →
      ∃ k c, 1 ≤ k ∧ cfg.pred c.id = true ∧
        (pagingLoop cfg i items (fuel + 1) w s).1 = PagingRes.found c ∧
        (pagingLoop cfg i items (fuel + 1) w s).2.trace = s.trace ++ roundTrace i k := by
  intro fuel
  induction fuel with
  | zero =>
    intro w s hlen
    cases hf : (items.take (w + cfg.pageSize)).find? (fun u => cfg.pred u.id) with
    | some c =>
      refine ⟨1, c, Nat.le_refl 1, by simpa using List.find?_some hf, ?_, ?_⟩
      · simp [pagingLoop, isCancelled_none hc, hf]
      · simp [pagingLoop, isCancelled_none hc, hf, pageRound_trace, roundTrace]
    | none =>
      exfalso
      have htake : items.take (w + cfg.pageSize) = items :=
        List.take_of_length_le (by omega)
      rw [htake] at hf
      obtain ⟨c, hcm, hcp⟩ := hm
      exact (List.find?_eq_none.mp hf c hcm) hcp
  | succ n ih =>
    intro w s hlen
    cases hf : (items.take (w + cfg.pageSize)).find? (fun u => cfg.pred u.id) with
    | some c =>
      refine ⟨1, c, Nat.le_refl 1, by simpa using List.find?_some hf, ?_, ?_⟩
      · simp [pagingLoop, isCancelled_none hc, hf]
      · simp [pagingLoop, isCancelled_none hc, hf, pageRound_trace, roundTrace]
    | none =>
      by_cases hw : w + cfg.pageSize < items.length
      · obtain ⟨k, c, hk, hp, h1, h2⟩ := ih (w + cfg.pageSize) (pageRound cfg i w s) (by
          have : (n + 1) * cfg.pageSize = cfg.pageSize + n * cfg.pageSize := by ring
          omega)
        refine ⟨k + 1, c, by omega, hp, ?_, ?_⟩
        · simpa [pagingLoop, isCancelled_none hc, hf, hw] using h1
        · have h3 : (pagingLoop cfg i items (n + 1 + 1) w s).2.trace =
              (pageRound cfg i w s).trace ++ roundTrace i k := by
            simpa [pagingLoop, isCancelled_none hc, hf, hw] using h2
          rw [h3, pageRound_trace, List.append_assoc]
          rfl
      · exfalso
        have htake : items.take (w + cfg.pageSize) = items :=
          List.take_of_length_le (by omega)
        rw [htake] at hf
        obtain ⟨c, hcm, hcp⟩ := hm
        exact (List.find?_eq_none.mp hf c hcm) hcp

theorem extends_refl (i : Nat) (s : St) : Extends i s s :=
  ⟨[], by simp, by simp⟩

theorem extends_addEv (i : Nat) (s : St) : Extends i s (addEv (Ev.getChildren i) s) :=
  ⟨[Ev.getChildren i], rfl, by simp⟩

theorem extends_trans {i : Nat} {s s1 s2 : St} (h1 : Extends i s s1) (h2 : Extends i s1 s2) :
    Extends i s s2 := by
  obtain ⟨es1, he1, hm1⟩ := h1
  obtain ⟨es2, he2, hm2⟩ := h2
  refine ⟨es1 ++ es2, by rw [he2, he1, List.append_assoc], ?_⟩
  intro e he
  rcases List.mem_append.mp he with h | h
  · exact hm1 e h
  · exact hm2 e h

theorem extends_pagingLoop (cfg : Cfg) (i : Nat) (items : List PTree) (fuel w : Nat)
    (s : St) : Extends i s (pagingLoop cfg i items fuel w s).2 := by
  obtain ⟨es, h1, h2⟩ := pagingLoop_trace cfg i items fuel w s
  exact ⟨es, h1, h2⟩

theorem processNode_st_extends (cfg : Cfg) (t : PTree) (rest : List (Option PTree))
    (d : Nat) (s : St) : Extends t.id s (processNode cfg t rest d s).st := by
  unfold processNode
  cases hp : cfg.pred t.id with
  | true => simpa [hp, StepRes.st] using extends_refl t.id s
  | false =>
    cases hsk : skipTraverse cfg t with
    | true => simpa [hp, hsk, StepRes.st] using extends_refl t.id s
    | false =>
      simp only [hp, hsk, Bool.false_eq_true, if_false]
      set w := windowOf s t with hw
      set cs := if t.pageable then t.children.take w else t.children with hcs
      cases he : cs.isEmpty with
      | true => simpa [he, StepRes.st] using extends_addEv t.id s
      | false =>
        cases hpg : t.pageable with
        | false => simpa [he, hpg, StepRes.st] using extends_addEv t.id s
        | true =>
          simp only [he, hpg, Bool.false_eq_true, if_false, if_true]
          cases hf : cs.find? (fun u => cfg.pred u.id) with
          | some c => simpa [hf, StepRes.st] using extends_addEv t.id s
          | none =>
            simp only [hf]
            cases hap : cfg.allowPaging && decide (w < t.children.length) with
            | false => simpa [hap, StepRes.st] using extends_addEv t.id s
            | true =>
              simp only [hap, if_true]
              rcases hpl : pagingLoop cfg t.id t.children (t.children.length + 1) w
                  (addEv (Ev.getChildren t.id) s) with ⟨r, s2⟩
              have hext : Extends t.id s s2 := by
                have := extends_pagingLoop cfg t.id t.children (t.children.length + 1) w
                  (addEv (Ev.getChildren t.id) s)
                rw [hpl] at this
                exact extends_trans (extends_addEv t.id s) this
              cases r with
              | found c => simpa [hpl, StepRes.st] using hext
              | cancelled => simpa [hpl, StepRes.st] using hext
              | exhausted => simpa [hpl, StepRes.st] using hext
              | fuelOut => simpa [hpl, StepRes.st] using hext

theorem processNode_cont (cfg : Cfg) (t : PTree) (rest : List (Option PTree)) (d : Nat)
    (s : St) : ∀ q1 d1 s1, processNode cfg t rest d s = .cont q1 d1 s1 →
      d1 = d ∧ (q1 = rest ∨ (t.pageable = false ∧ q1 = rest ++ t.children.map some)) := by
  intro q1 d1 s1 h
  unfold processNode at h
  cases hp : cfg.pred t.id with
  | true => rw [hp] at h; simp at h
  | false =>
    rw [hp] at h
    cases hsk : skipTraverse cfg t with
    | true =>
      rw [hsk] at h
      simp at h
      exact ⟨h.2.1.symm, Or.inl h.1.symm⟩
    | false =>
      rw [hsk] at h
      simp only [Bool.false_eq_true, if_false] at h
      set w := windowOf s t with hw
      set cs := if t.pageable then t.children.take w else t.children with hcs
      cases he : cs.isEmpty with
      | true =>
        rw [he] at h
        simp at h
        exact ⟨h.2.1.symm, Or.inl h.1.symm⟩
      | false =>
        rw [he] at h
        cases hpg : t.pageable with
        | false =>
          rw [hpg] at h
          simp at h
          refine ⟨h.2.1.symm, Or.inr ⟨rfl, ?_⟩⟩
          simp [← h.1, hcs, hpg]
        | true =>
          rw [hpg] at h
          simp only [Bool.false_eq_true, if_false, if_true] at h
          cases hf : cs.find? (fun u => cfg.pred u.id) with
          | some c => rw [hf] at h; simp at h
          | none =>
            rw [hf] at h
            cases hap : cfg.allowPaging && decide (w < t.children.length) with
            | false =>
              rw [hap] at h
              simp at h
              exact ⟨h.2.1.symm, Or.inl h.1.symm⟩
            | true =>
              rw [hap] at h
              simp only [if_true] at h
              rcases hpl : pagingLoop cfg t.id t.children (t.children.length + 1) w
                  (addEv (Ev.getChildren t.id) s) with ⟨r, s2⟩
              rw [hpl] at h
              cases r with
              | found c => simp at h
              | cancelled => simp at h
              | exhausted =>
                simp at h
                exact ⟨h.2.1.symm, Or.inl h.1.symm⟩
              | fuelOut => simp at h

theorem bfsStep_pageable_cont (cfg : Cfg) (t : PTree) (rest : List (Option PTree)) (d : Nat)
    (s : St) (hpg : t.pageable = true) :
    ∀ q1 d1 s1, bfsStep cfg (some t :: rest) d s = .cont q1 d1 s1 → q1 = rest ∧ d1 = d := by
  intro q1 d1 s1 h
  unfold bfsStep at h
  by_cases hl : (some t :: rest).length ≤ 1
  · rw [if_pos hl] at h
    exact StepRes.noConfusion h
  · rw [if_neg hl] at h
    cases hB : isCancelled cfg s with
    | true =>
      rw [hB] at h
      simp at h
    | false =>
      rw [hB] at h
      simp only [Bool.false_eq_true, if_false] at h
      obtain ⟨hd, hq⟩ := processNode_cont cfg t rest d (tick s) q1 d1 s1 h
      rcases hq with hq | ⟨hpf, _⟩
      · exact ⟨hq, hd⟩
      · rw [hpg] at hpf
        exact Bool.noConfusion hpf

theorem queue_head_some {A B : List PTree} {t : PTree} {rest : List (Option PTree)}
    (h : some t :: rest = A.map some ++ none :: B.map some) :
    ∃ A2, A = t :: A2 ∧ rest = A2.map some ++ none :: B.map some := by
  cases A with
  | nil => simp at h
  | cons a A2 =>
    simp only [List.map_cons, List.cons_append, List.cons.injEq, Option.some.injEq] at h
    exact ⟨A2, by rw [h.1], h.2⟩

theorem queue_head_none {A B : List PTree} {rest : List (Option PTree)}
    (h : (none : Option PTree) :: rest = A.map some ++ none :: B.map some) :
    A = [] ∧ rest = B.map some := by
  cases A with
  | nil =>
    simp only [List.map_nil, List.nil_append, List.cons.injEq] at h
    exact ⟨rfl, h.2⟩
  | cons a A2 => simp at h

theorem bfsStep_sound (cfg : Cfg) (root : PTree) (q : List (Option PTree)) (d : Nat) (s : St)
    (hinv : QInv root cfg.maxDepth q d) :
    (∃ es, (bfsStep cfg q d s).st.trace = s.trace ++ es ∧ ∀ e ∈ es, EvOK root cfg.maxDepth e) ∧
    (∀ q1 d1 s1, bfsStep cfg q d s = .cont q1 d1 s1 → QInv root cfg.maxDepth q1 d1) := by
  obtain ⟨hd, A, B, hq, hA, hB⟩ := hinv
  unfold bfsStep
  by_cases hl : q.length ≤ 1
  · rw [if_pos hl]
    exact ⟨⟨[], by simp [StepRes.st], by simp⟩, fun q1 d1 s1 h => StepRes.noConfusion h⟩
  · rw [if_neg hl]
    cases hB2 : isCancelled cfg s with
    | true =>
      exact ⟨⟨[], by simp [StepRes.st, tick], by simp⟩, fun q1 d1 s1 h => StepRes.noConfusion h⟩
    | false =>
      subst hq
      simp only [Bool.false_eq_true, if_false]
      cases A with
      | nil =>
        simp only [List.map_nil, List.nil_append]
        by_cases hdm : cfg.maxDepth < d + 1
        · rw [if_pos hdm]
          exact ⟨⟨[], by simp [StepRes.st, tick], by simp⟩,
            fun q1 d1 s1 h => StepRes.noConfusion h⟩
        · rw [if_neg hdm]
          refine ⟨⟨[], by simp [StepRes.st, tick], by simp⟩, ?_⟩
          intro q1 d1 s1 h
          obtain ⟨h1, h2, _⟩ := StepRes.cont.inj h
          refine ⟨by omega, B, [], ?_, ?_, by simp⟩
          · rw [← h1]; simp
          · intro u hu
            rw [← h2]
            exact hB u hu
      | cons t A2 =>
        simp only [List.map_cons, List.cons_append]
        have hmemA : t ∈ t :: A2 := List.mem_cons_self _ _
        have hAt : AtDepth root d t := hA t hmemA
        constructor
        · obtain ⟨es, he, hm⟩ :=
            processNode_st_extends cfg t (A2.map some ++ none :: B.map some) d (tick s)
          refine ⟨es, by rw [he]; rfl, ?_⟩
          intro e hee
          rcases hm e hee with h1 | h1
          · intro i hi
            rw [h1] at hi
            exact Ev.noConfusion hi
          · intro i hi
            rw [h1] at hi
            obtain hid := Ev.getChildren.inj hi
            exact ⟨t, d, hAt, hid, hd⟩
        · intro q1 d1 s1 h
          obtain ⟨hdd, hq1⟩ :=
            processNode_cont cfg t (A2.map some ++ none :: B.map some) d (tick s) q1 d1 s1 h
          subst hdd
          rcases hq1 with hq1 | ⟨_, hq1⟩
          · exact ⟨hd, A2, B, hq1, fun u hu => hA u (List.mem_cons_of_mem _ hu), hB⟩
          · refine ⟨hd, A2, B ++ t.children, ?_, fun u hu => hA u (List.mem_cons_of_mem _ hu), ?_⟩
            · rw [hq1]
              simp
            · intro u hu
              rcases List.mem_append.mp hu with h2 | h2
              · exact hB u h2
              · exact AtDepth.child hAt h2

theorem bfsRun_trace_ok (cfg : Cfg) (root : PTree) :
    ∀ fuel q d s, QInv root cfg.maxDepth q d →
      ∃ es, (bfsRun cfg fuel q d s).2.trace = s.trace ++ es ∧
        ∀ e ∈ es, EvOK root cfg.maxDepth e := by
  intro fuel
  induction fuel with
  | zero => intro q d s _; exact ⟨[], by simp [bfsRun], by simp⟩
  | succ n ih =>
    intro q d s hinv
    obtain ⟨⟨es1, he1, hm1⟩, hcont⟩ := bfsStep_sound cfg root q d s hinv
    cases hstep : bfsStep cfg q d s with
    | done r s1 =>
      rw [hstep] at he1
      exact ⟨es1, by simp only [bfsRun, hstep]; exact he1, hm1⟩
    | stuck s1 =>
      rw [hstep] at he1
      exact ⟨es1, by simp only [bfsRun, hstep]; exact he1, hm1⟩
    | cont q1 d1 s1 =>
      rw [hstep] at he1
      simp only [StepRes.st] at he1
      obtain ⟨es2, he2, hm2⟩ := ih q1 d1 s1 (hcont q1 d1 s1 hstep)
      refine ⟨es1 ++ es2, ?_, ?_⟩
      · simp only [bfsRun, hstep]
        rw [he2, he1, List.append_assoc]
      · intro e he
        rcases List.mem_append.mp he with h | h
        · exact hm1 e h
        · exact hm2 e h

theorem qinv_init (cfg : Cfg) (root : PTree) : QInv root cfg.maxDepth [some root, none] 0 := by
  refine ⟨Nat.zero_le _, [root], [], by simp, ?_, by simp⟩
  intro u hu
  rw [List.mem_singleton.mp hu]
  exact AtDepth.refl root

/-- C4: for every tree, configuration and fuel, the breadth-first search of
findNodeCoreBFS only ever invokes getChildren on nodes that occur at a depth
at most maxDepth: every getChildren effect in the trace targets a node
reachable at some depth d with d at most maxDepth, so no node whose only
occurrences are at depth maxDepth + 1 or deeper is ever materialised (in
particular, with maxDepth 2 no depth-3 node has getChildren called on it). -/
theorem findNodeCoreBFS_depth_bound (cfg : Cfg) (root : PTree) (fuel : Nat) :
    ∀ i, Ev.getChildren i ∈ (findNodeCoreBFS cfg root fuel).2.trace →
      ∃ u d, AtDepth root d u ∧ u.id = i ∧ d ≤ cfg.maxDepth := by
  intro i hi
  obtain ⟨es, he, hm⟩ :=
    bfsRun_trace_ok cfg root fuel [some root, none] 0 initSt (qinv_init cfg root)
  unfold findNodeCoreBFS at hi
  rw [he] at hi
  simp only [initSt, List.nil_append] at hi
  exact hm _ hi i rfl

theorem c4_witness : ∃ u d, AtDepth rootW4 d u ∧ u.id = 0 ∧ d ≤ cfgW4.maxDepth :=
  findNodeCoreBFS_depth_bound cfgW4 rootW4 9 0 (by decide)

/-- C10: omitting maxDepth in the findNode options behaves exactly as passing
maxDepth 2 (the destructuring default of the source), and therefore the
default search never invokes getChildren on a node occurring only below depth
2. -/
theorem findNode_default_maxDepth (p : Nat → Bool) (ct : Option (Nat → Bool)) (ap : Bool)
    (tok : Option Nat) (ps : Nat) (root : PTree) (fuel : Nat) :
    findNode p ⟨ap, ct, none, tok⟩ ps root fuel = findNode p ⟨ap, ct, some 2, tok⟩ ps root fuel ∧
    ∀ i, Ev.getChildren i ∈ (findNode p ⟨ap, ct, none, tok⟩ ps root fuel).2.trace →
      ∃ u d, AtDepth root d u ∧ u.id = i ∧ d ≤ 2 := by
  constructor
  · rfl
  · intro i hi
    replace hi : Ev.getChildren i ∈
        (bfsRun ⟨p, ct, ap, 2, tok, ps⟩ fuel [some root, none] 0 initSt).2.trace := hi
    obtain ⟨es, he, hm⟩ := bfsRun_trace_ok ⟨p, ct, ap, 2, tok, ps⟩ root fuel
      [some root, none] 0 initSt (qinv_init ⟨p, ct, ap, 2, tok, ps⟩ root)
    rw [he] at hi
    simp only [initSt, List.nil_append] at hi
    exact hm _ hi i rfl

theorem c10_witness :
    (findNode cfgW4.pred ⟨false, none, none, none⟩ 1 rootW4 9 =
      findNode cfgW4.pred ⟨false, none, some 2, none⟩ 1 rootW4 9) ∧
    ∃ u d, AtDepth rootW4 d u ∧ u.id = 0 ∧ d ≤ 2 :=
  ⟨(findNode_default_maxDepth cfgW4.pred none false none 1 rootW4 9).1,
    (findNode_default_maxDepth cfgW4.pred none false none 1 rootW4 9).2 0 (by decide)⟩

/-- C6: a pre-cancelled token (cancelled from the very first check) makes
findNode return the definite not-found answer and the run performs no
getChildren at all: the token is checked at the first queue pop, before any
node beyond the root could be materialised. -/
theorem findNode_precancelled (p : Nat → Bool) (ct : Option (Nat → Bool)) (ap : Bool)
    (md : Option Nat) (ps : Nat) (root : PTree) (fuel : Nat) :
    (findNode p ⟨ap, ct, md, some 0⟩ ps root (fuel + 1)).1 = some none ∧
    ∀ i, Ev.getChildren i ∉ (findNode p ⟨ap, ct, md, some 0⟩ ps root (fuel + 1)).2.trace := by
  have h : findNode p ⟨ap, ct, md, some 0⟩ ps root (fuel + 1) = (some none, tick initSt) := by
    simp [findNode, findNodeCoreBFS, bfsRun, bfsStep, isCancelled]
  rw [h]
  refine ⟨rfl, ?_⟩
  intro i h2
  simp [tick, initSt] at h2

theorem c6_witness :
    (findNode cfgW4.pred ⟨false, none, none, some 0⟩ 1 rootW4 (8 + 1)).1 = some none ∧
    Ev.getChildren 0 ∉ (findNode cfgW4.pred ⟨false, none, none, some 0⟩ 1 rootW4 (8 + 1)).2.trace :=
  ⟨(findNode_precancelled cfgW4.pred none false none 1 rootW4 8).1,
    (findNode_precancelled cfgW4.pred none false none 1 rootW4 8).2 0⟩

/-- C5 counterexample: with a token that turns cancelled at the third check,
the search over a pageable root completes one paging round (one showMore) and
then observes the cancellation: it returns the clean not-found answer, but the
engine-owned last-known-limit map and the node window differ from their values
at the start of the call, so a cancelled run is not mutation free. -/
theorem c5_counterexample :
    notFound (findNodeCoreBFS cfgW5 rootW5 5).1 = true ∧
    (findNodeCoreBFS cfgW5 rootW5 5).2.limits ≠ initSt.limits ∧
    (findNodeCoreBFS cfgW5 rootW5 5).2.windows ≠ initSt.windows :=
  ⟨by decide, by decide, by decide⟩

/-- C5 amended: a run that observes cancellation returns the not-found answer;
when the token is already cancelled at the start of the call the engine state
is fully preserved (no last-known-limit entry, no window, no trace effect),
while mutations of paging rounds completed before the cancellation check
persist (see the counterexample). -/
theorem bfs_precancelled_no_mutation (p : Nat → Bool) (ct : Option (Nat → Bool)) (ap : Bool)
    (md ps : Nat) (root : PTree) (fuel : Nat) (s0 : St) :
    (bfsRun ⟨p, ct, ap, md, some 0, ps⟩ (fuel + 1) [some root, none] 0 s0).1 = some none ∧
    (bfsRun ⟨p, ct, ap, md, some 0, ps⟩ (fuel + 1) [some root, none] 0 s0).2.limits = s0.limits ∧
    (bfsRun ⟨p, ct, ap, md, some 0, ps⟩ (fuel + 1) [some root, none] 0 s0).2.windows = s0.windows ∧
    (bfsRun ⟨p, ct, ap, md, some 0, ps⟩ (fuel + 1) [some root, none] 0 s0).2.trace = s0.trace := by
  have h : bfsRun ⟨p, ct, ap, md, some 0, ps⟩ (fuel + 1) [some root, none] 0 s0 =
      (some none, tick s0) := by
    simp [bfsRun, bfsStep, isCancelled]
  rw [h]
  exact ⟨rfl, rfl, rfl, rfl⟩

/-- C3: with a positive page size and no token, the paging loop on a Pageable
node whose hasMore flag is true and whose matching item lies beyond the
current window terminates within length-many rounds (it never exhausts its
fuel, stopping only on found, hasMore false or cancellation); it returns a
node satisfying the predicate after at least one showMore, and its trace is
exactly k complete rounds - each a showMore followed by a re-fetch - ending
with the fetch that revealed the match, so no showMore happens after the
match is found; and a Pageable node popped by the BFS never has its children
enqueued: the continuation queue is exactly the remaining queue. -/
theorem findNode_paging_bounded (cfg : Cfg) (i : Nat) (items : List PTree) (w : Nat)
    (hps : 1 ≤ cfg.pageSize) (hcancel : cfg.cancelAt = none)
    (_hmore : w < items.length)
    (_hbeyond : (items.take w).find? (fun u => cfg.pred u.id) = none)
    (hmatch : ∃ c ∈ items, cfg.pred c.id = true) :
    (∀ s, (pagingLoop cfg i items (items.length + 1) w s).1 ≠ PagingRes.fuelOut) ∧
    (∀ s, ∃ k c, 1 ≤ k ∧ cfg.pred c.id = true ∧
      (pagingLoop cfg i items (items.length + 1) w s).1 = PagingRes.found c ∧
      (pagingLoop cfg i items (items.length + 1) w s).2.trace = s.trace ++ roundTrace i k) ∧
    (∀ t rest d s q1 d1 s1, t.pageable = true →
      bfsStep cfg (some t :: rest) d s = .cont q1 d1 s1 → q1 = rest ∧ d1 = d) := by
  have harith : items.length ≤ w + items.length * cfg.pageSize :=
    calc items.length = items.length * 1 := (Nat.mul_one _).symm
      _ ≤ items.length * cfg.pageSize := Nat.mul_le_mul_left _ hps
      _ ≤ w + items.length * cfg.pageSize := Nat.le_add_left _ _
  exact ⟨fun s => pagingLoop_not_fuelOut cfg i items items.length w s harith,
    fun s => pagingLoop_found cfg i items hcancel hmatch items.length w s harith,
    fun t rest d s q1 d1 s1 hpg h => bfsStep_pageable_cont cfg t rest d s hpg q1 d1 s1 h⟩

theorem c3_witness :
    (1 ≤ cfgW3.pageSize) ∧ cfgW3.cancelAt = none ∧ (1 < itemsW3.length) ∧
    ((itemsW3.take 1).find? (fun u => cfgW3.pred u.id) = none) ∧
    (∃ c ∈ itemsW3, cfgW3.pred c.id = true) ∧
    (∃ k c, 1 ≤ k ∧ cfgW3.pred c.id = true ∧
      (pagingLoop cfgW3 0 itemsW3 (itemsW3.length + 1) 1 initSt).1 = PagingRes.found c ∧
      (pagingLoop cfgW3 0 itemsW3 (itemsW3.length + 1) 1 initSt).2.trace =
        initSt.trace ++ roundTrace 0 k) :=
  ⟨by decide, rfl, by decide, rfl, ⟨leafW 3, by simp [itemsW3, leafW], rfl⟩,
    (findNode_paging_bounded cfgW3 0 itemsW3 1 (by decide) rfl (by decide) rfl
      ⟨leafW 3, by simp [itemsW3, leafW], rfl⟩).2.1 initSt⟩

/-- C1 counterexample: two reachable cached children lists on which the claim
fails.  First, with the placeholder cached (reachable after a nonempty-to-empty
refresh) and a nonempty external collection, refresh throws (the TypeError at
c.repo.normalizedPath in the find scan) instead of constructing a new node for
the unmatched item and disposing the placeholder exactly once.  Second, with a
repository node cached and an empty external collection, refresh replaces the
cache by a fresh placeholder and returns without any dispose effect, so the
cached child with no matching external item is disposed zero times, not
exactly once. -/
theorem c1_counterexample :
    RepositoriesNode.refresh (some [RChild.messageNode 7 noReposMessage]) [repoA] 8 =
      .error () ∧
    RepositoriesNode.refresh (some [RChild.repoNode 0 repoA]) [] 1 =
      .ok (some [RChild.messageNode 1 noReposMessage], 2, [REv.fetchRepositories]) ∧
    REv.disposeChild 0 ∉ [REv.fetchRepositories] :=
  ⟨rfl, rfl, by decide⟩
